import Mathlib

/-!
Shallow embedding of the idempotent ingestion core of the dst_airlines
repository (`src/dst_airlines/database/mongodb.py`, function
`add_flight_dict`), together with proofs about its behaviour.

Records are modelled as an opaque type `α` with decidable equality
(structural document identity).  A MongoDB collection is modelled as a
`List α` (insertion order kept); `find_one` is the structural existence
probe and `insert_one` appends.  The loop of `add_flight_dict` is the
recursion `ingestLoop`, which also records which documents were probed
and which were inserted, the final value of `existence_count`, and
whether the loop exited through `break`.
-/

namespace DstAirlines

variable {α : Type} [DecidableEq α]

/-- `flights_collection.find_one(doc)`: structural existence probe; returns a
matching stored document, or `none` when no structurally identical document
is stored. -/
def find_one (coll : List α) (doc : α) : Option α :=
  if doc ∈ coll then some doc else none

/-- Observable outcome of one run of the insertion loop of
`add_flight_dict`: the final collection contents, the documents probed via
`find_one` (in order), the documents passed to `insert_one` (in order), the
final value of `existence_count`, and whether the loop exited via `break`. -/
structure IngestResult (α : Type) where
  collection : List α
  probed : List α
  inserted : List α
  count : Nat
  broke : Bool
deriving DecidableEq, Repr

/-- The `for flight_status_resource in flight_status_resources:` loop of
`add_flight_dict`:

    existence_test = flights_collection.find_one(flight_status_resource)
    if existence_test == None:
        flights_collection.insert_one(flight_status_resource)
    elif existence_count >= existence_max_count and not force_test_all:
        break
    else:
        existence_count += 1

`existence_max_count` is a Python `int`, hence `Int` here; the counter
starts at 0 and only grows, hence `Nat`. -/
def ingestLoop (existence_max_count : Int) (force_test_all : Bool) :
    List α → List α → Nat → IngestResult α
  | [], coll, existence_count =>
    ⟨coll, [], [], existence_count, false⟩
  | r :: rs, coll, existence_count =>
    if find_one coll r = none then
      ⟨(ingestLoop existence_max_count force_test_all rs (coll ++ [r]) existence_count).collection,
       r :: (ingestLoop existence_max_count force_test_all rs (coll ++ [r]) existence_count).probed,
       r :: (ingestLoop existence_max_count force_test_all rs (coll ++ [r]) existence_count).inserted,
       (ingestLoop existence_max_count force_test_all rs (coll ++ [r]) existence_count).count,
       (ingestLoop existence_max_count force_test_all rs (coll ++ [r]) existence_count).broke⟩
    else if (existence_count : Int) ≥ existence_max_count ∧ force_test_all = false then
      ⟨coll, [r], [], existence_count, true⟩
    else
      ⟨(ingestLoop existence_max_count force_test_all rs coll (existence_count + 1)).collection,
       r :: (ingestLoop existence_max_count force_test_all rs coll (existence_count + 1)).probed,
       (ingestLoop existence_max_count force_test_all rs coll (existence_count + 1)).inserted,
       (ingestLoop existence_max_count force_test_all rs coll (existence_count + 1)).count,
       (ingestLoop existence_max_count force_test_all rs coll (existence_count + 1)).broke⟩

/-- The record-level body of `add_flight_dict` (the spec's `ingest`): run the
loop starting from `existence_count = 0`, then compute `was_fully_added`:

    if existence_count >= existence_max_count and not force_test_all:
        was_fully_added = False
    else:
        was_fully_added = True

Returns the completion signal together with the loop's observable outcome. -/
def ingest (flight_status_resources coll : List α)
    (existence_max_count : Int) (force_test_all : Bool) : Bool × IngestResult α :=
  let res := ingestLoop existence_max_count force_test_all flight_status_resources coll 0
  (if (res.count : Int) ≥ existence_max_count ∧ force_test_all = false then false else true, res)

/-- A wrapper entry of the raw batch: the `"FlightStatusResource"` key may be
absent (`none`), in which case Python raises a `KeyError`. -/
structure RawEntry (α : Type) where
  FlightStatusResource : Option α
deriving DecidableEq

/-- The raw batch dictionary: the top-level `"data"` key may be absent. -/
structure RawFlights (α : Type) where
  data : Option (List (RawEntry α))
deriving DecidableEq

/-- The `KeyError`s the decomposition lines of `add_flight_dict` can raise
(the spec's `MalformedBatch`). -/
inductive MalformedBatch where
  | missingData
  | missingFlightStatusResource
deriving DecidableEq

/-- The list comprehension
`[data["FlightStatusResource"] for data in flight_data]`: eager, stops with a
`KeyError` at the first entry lacking the key, yields the full list of
records otherwise. -/
def extractResources : List (RawEntry α) → Except MalformedBatch (List α)
  | [] => .ok []
  | e :: es =>
    match e.FlightStatusResource with
    | none => .error .missingFlightStatusResource
    | some r =>
      match extractResources es with
      | .error err => .error err
      | .ok rs => .ok (r :: rs)

/-- The decomposition lines of `add_flight_dict`:
`flight_data = flights["data"]` followed by the comprehension. -/
def decompose (flights : RawFlights α) : Except MalformedBatch (List α) :=
  match flights.data with
  | none => .error .missingData
  | some entries => extractResources entries

/-- Full `add_flight_dict`: decompose the raw dictionary, then run the
insertion loop; a `KeyError` in decomposition aborts before any probe or
insert happens. -/
def add_flight_dict (flights : RawFlights α) (coll : List α)
    (existence_max_count : Int) (force_test_all : Bool) :
    Except MalformedBatch (Bool × IngestResult α) :=
  match decompose flights with
  | .error err => .error err
  | .ok records => .ok (ingest records coll existence_max_count force_test_all)

/-- Outcome of a run against a store whose operations may fail: either the
loop finished (final collection and counter), or a `StorageError` was raised
and propagated, leaving the collection as it was at the moment of the
failure (no rollback). -/
inductive IngestOutcome (α : Type) where
  | ok (collection : List α) (count : Nat)
  | storageError (collection : List α)
deriving DecidableEq, Repr

/-- The loop of `add_flight_dict` against a fallible store: `pFail i` says
the `find_one` call at batch position `i` raises a `StorageError`, `iFail i`
the same for the `insert_one` call at position `i`.  The code has no
`try/except`, so a raised error aborts the loop at once; `idx` is the
current batch position. -/
def ingestLoopF (pFail iFail : Nat → Bool) (existence_max_count : Int) (force_test_all : Bool) :
    List α → List α → Nat → Nat → IngestOutcome α
  | [], coll, existence_count, _ =>
    .ok coll existence_count
  | r :: rs, coll, existence_count, idx =>
    if pFail idx then .storageError coll
    else if find_one coll r = none then
      if iFail idx then .storageError coll
      else ingestLoopF pFail iFail existence_max_count force_test_all rs (coll ++ [r])
        existence_count (idx + 1)
    else if (existence_count : Int) ≥ existence_max_count ∧ force_test_all = false then
      .ok coll existence_count
    else
      ingestLoopF pFail iFail existence_max_count force_test_all rs coll
        (existence_count + 1) (idx + 1)

/-- Record-level `add_flight_dict` against a fallible store: a raised
`StorageError` propagates to the caller (carrying the collection contents
left in place); otherwise `was_fully_added` is computed as usual. -/
def ingestF (pFail iFail : Nat → Bool) (flight_status_resources coll : List α)
    (existence_max_count : Int) (force_test_all : Bool) :
    Except (List α) (Bool × List α) :=
  match ingestLoopF pFail iFail existence_max_count force_test_all
      flight_status_resources coll 0 0 with
  | .storageError c => .error c
  | .ok c count =>
    .ok (if (count : Int) ≥ existence_max_count ∧ force_test_all = false then false else true, c)

/-- The probe misses exactly when the document is not stored. -/
theorem find_one_eq_none_iff (coll : List α) (r : α) :
    find_one coll r = none ↔ r ∉ coll := by
  unfold find_one
  split <;> simp_all

/-- The final collection is the initial collection followed by the inserted
documents, in insertion order. -/
theorem ingestLoop_collection_eq (m : Int) (f : Bool) :
    ∀ (records coll : List α) (c : Nat),
      (ingestLoop m f records coll c).collection =
        coll ++ (ingestLoop m f records coll c).inserted
  | [], coll, c => by simp [ingestLoop]
  | r :: rs, coll, c => by
    by_cases hmem : r ∈ coll
    · rw [ingestLoop, if_neg (by simp [find_one_eq_none_iff, hmem])]
      by_cases hbrk : (c : Int) ≥ m ∧ f = false
      · rw [if_pos hbrk]
        simp
      · rw [if_neg hbrk]
        simpa using ingestLoop_collection_eq m f rs coll (c + 1)
    · rw [ingestLoop, if_pos ((find_one_eq_none_iff coll r).mpr hmem)]
      have ih := ingestLoop_collection_eq m f rs (coll ++ [r]) c
      simpa using ih

/-- Every inserted document was absent from the initial collection. -/
theorem ingestLoop_inserted_not_mem (m : Int) (f : Bool) :
    ∀ (records coll : List α) (c : Nat),
      ∀ x ∈ (ingestLoop m f records coll c).inserted, x ∉ coll
  | [], coll, c => by simp [ingestLoop]
  | r :: rs, coll, c => by
    by_cases hmem : r ∈ coll
    · rw [ingestLoop, if_neg (by simp [find_one_eq_none_iff, hmem])]
      by_cases hbrk : (c : Int) ≥ m ∧ f = false
      · rw [if_pos hbrk]
        simp
      · rw [if_neg hbrk]
        simpa using ingestLoop_inserted_not_mem m f rs coll (c + 1)
    · rw [ingestLoop, if_pos ((find_one_eq_none_iff coll r).mpr hmem)]
      have ih := ingestLoop_inserted_not_mem m f rs (coll ++ [r]) c
      intro x hx
      simp only [List.mem_cons] at hx
      rcases hx with rfl | hx
      · exact hmem
      · intro hxc
        exact ih x hx (by simp [hxc])

/-- No document is inserted twice in one run. -/
theorem ingestLoop_inserted_nodup (m : Int) (f : Bool) :
    ∀ (records coll : List α) (c : Nat),
      (ingestLoop m f records coll c).inserted.Nodup
  | [], coll, c => by simp [ingestLoop]
  | r :: rs, coll, c => by
    by_cases hmem : r ∈ coll
    · rw [ingestLoop, if_neg (by simp [find_one_eq_none_iff, hmem])]
      by_cases hbrk : (c : Int) ≥ m ∧ f = false
      · rw [if_pos hbrk]
        simp
      · rw [if_neg hbrk]
        simpa using ingestLoop_inserted_nodup m f rs coll (c + 1)
    · rw [ingestLoop, if_pos ((find_one_eq_none_iff coll r).mpr hmem)]
      have ih := ingestLoop_inserted_nodup m f rs (coll ++ [r]) c
      have hnot := ingestLoop_inserted_not_mem m f rs (coll ++ [r]) c
      simp only [List.nodup_cons]
      exact ⟨fun hr => hnot r hr (by simp), ih⟩

/-- The probed documents are an initial segment of the batch. -/
theorem ingestLoop_probed_take (m : Int) (f : Bool) :
    ∀ (records coll : List α) (c : Nat),
      (ingestLoop m f records coll c).probed =
        records.take (ingestLoop m f records coll c).probed.length
  | [], coll, c => by simp [ingestLoop]
  | r :: rs, coll, c => by
    by_cases hmem : r ∈ coll
    · rw [ingestLoop, if_neg (by simp [find_one_eq_none_iff, hmem])]
      by_cases hbrk : (c : Int) ≥ m ∧ f = false
      · rw [if_pos hbrk]
        simp
      · rw [if_neg hbrk]
        have ih := ingestLoop_probed_take m f rs coll (c + 1)
        simp only [List.length_cons, List.take_succ_cons, List.cons.injEq, true_and]
        exact ih
    · rw [ingestLoop, if_pos ((find_one_eq_none_iff coll r).mpr hmem)]
      have ih := ingestLoop_probed_take m f rs (coll ++ [r]) c
      simp only [List.length_cons, List.take_succ_cons, List.cons.injEq, true_and]
      exact ih

/-- A loop that did not `break` has probed the whole batch. -/
theorem ingestLoop_probed_of_not_broke (m : Int) (f : Bool) :
    ∀ (records coll : List α) (c : Nat),
      (ingestLoop m f records coll c).broke = false →
        (ingestLoop m f records coll c).probed = records
  | [], coll, c => by simp [ingestLoop]
  | r :: rs, coll, c => by
    by_cases hmem : r ∈ coll
    · rw [ingestLoop, if_neg (by simp [find_one_eq_none_iff, hmem])]
      by_cases hbrk : (c : Int) ≥ m ∧ f = false
      · rw [if_pos hbrk]
        simp
      · rw [if_neg hbrk]
        intro hb
        have ih := ingestLoop_probed_of_not_broke m f rs coll (c + 1) (by simpa using hb)
        simpa using ih
    · rw [ingestLoop, if_pos ((find_one_eq_none_iff coll r).mpr hmem)]
      intro hb
      have ih := ingestLoop_probed_of_not_broke m f rs (coll ++ [r]) c (by simpa using hb)
      simpa using ih

/-- Every probed document ends up in the final collection (it was either
already stored, or inserted on its miss). -/
theorem ingestLoop_mem_collection_of_mem_probed (m : Int) (f : Bool) :
    ∀ (records coll : List α) (c : Nat),
      ∀ x ∈ (ingestLoop m f records coll c).probed,
        x ∈ (ingestLoop m f records coll c).collection
  | [], coll, c => by simp [ingestLoop]
  | r :: rs, coll, c => by
    by_cases hmem : r ∈ coll
    · rw [ingestLoop, if_neg (by simp [find_one_eq_none_iff, hmem])]
      by_cases hbrk : (c : Int) ≥ m ∧ f = false
      · rw [if_pos hbrk]
        simpa using hmem
      · rw [if_neg hbrk]
        intro x hx
        simp only [List.mem_cons] at hx
        rcases hx with rfl | hx
        · rw [ingestLoop_collection_eq]
          simp [hmem]
        · simpa using ingestLoop_mem_collection_of_mem_probed m f rs coll (c + 1) x hx
    · rw [ingestLoop, if_pos ((find_one_eq_none_iff coll r).mpr hmem)]
      intro x hx
      simp only [List.mem_cons] at hx
      rcases hx with rfl | hx
      · rw [ingestLoop_collection_eq]
        simp
      · simpa using ingestLoop_mem_collection_of_mem_probed m f rs (coll ++ [r]) c x hx

/-- The counter never decreases. -/
theorem ingestLoop_count_le (m : Int) (f : Bool) :
    ∀ (records coll : List α) (c : Nat),
      c ≤ (ingestLoop m f records coll c).count
  | [], coll, c => by simp [ingestLoop]
  | r :: rs, coll, c => by
    by_cases hmem : r ∈ coll
    · rw [ingestLoop, if_neg (by simp [find_one_eq_none_iff, hmem])]
      by_cases hbrk : (c : Int) ≥ m ∧ f = false
      · rw [if_pos hbrk]
      · rw [if_neg hbrk]
        have ih := ingestLoop_count_le m f rs coll (c + 1)
        simpa using le_trans (Nat.le_succ c) ih
    · rw [ingestLoop, if_pos ((find_one_eq_none_iff coll r).mpr hmem)]
      simpa using ingestLoop_count_le m f rs (coll ++ [r]) c

/-- Without forcing, the counter never exceeds the threshold (it is only
incremented while strictly below it). -/
theorem ingestLoop_count_le_max (m : Int) :
    ∀ (records coll : List α) (c : Nat), (c : Int) ≤ m →
      ((ingestLoop m false records coll c).count : Int) ≤ m
  | [], coll, c => by simp [ingestLoop]
  | r :: rs, coll, c => by
    intro hc
    by_cases hmem : r ∈ coll
    · rw [ingestLoop, if_neg (by simp [find_one_eq_none_iff, hmem])]
      by_cases hbrk : (c : Int) ≥ m ∧ (false : Bool) = false
      · rw [if_pos hbrk]
        exact hc
      · rw [if_neg hbrk]
        have hlt : (c : Int) < m := by
          simp only [ge_iff_le, and_true] at hbrk
          omega
        have ih := ingestLoop_count_le_max m rs coll (c + 1) (by push_cast; omega)
        simpa using ih
    · rw [ingestLoop, if_pos ((find_one_eq_none_iff coll r).mpr hmem)]
      simpa using ingestLoop_count_le_max m rs (coll ++ [r]) c hc

/-- A `break` can only happen once the counter has reached the threshold. -/
theorem ingestLoop_count_ge_of_broke (m : Int) (f : Bool) :
    ∀ (records coll : List α) (c : Nat),
      (ingestLoop m f records coll c).broke = true →
        m ≤ ((ingestLoop m f records coll c).count : Int)
  | [], coll, c => by simp [ingestLoop]
  | r :: rs, coll, c => by
    by_cases hmem : r ∈ coll
    · rw [ingestLoop, if_neg (by simp [find_one_eq_none_iff, hmem])]
      by_cases hbrk : (c : Int) ≥ m ∧ f = false
      · rw [if_pos hbrk]
        intro _
        exact hbrk.1
      · rw [if_neg hbrk]
        intro hb
        simpa using ingestLoop_count_ge_of_broke m f rs coll (c + 1) (by simpa using hb)
    · rw [ingestLoop, if_pos ((find_one_eq_none_iff coll r).mpr hmem)]
      intro hb
      simpa using ingestLoop_count_ge_of_broke m f rs (coll ++ [r]) c (by simpa using hb)

/-- On a `break`, strictly more documents were probed than the counter
gained: the breaking probe itself did not increment the counter. -/
theorem ingestLoop_probed_length_of_broke (m : Int) (f : Bool) :
    ∀ (records coll : List α) (c : Nat),
      (ingestLoop m f records coll c).broke = true →
        (ingestLoop m f records coll c).count + 1 ≤
          c + (ingestLoop m f records coll c).probed.length
  | [], coll, c => by simp [ingestLoop]
  | r :: rs, coll, c => by
    by_cases hmem : r ∈ coll
    · rw [ingestLoop, if_neg (by simp [find_one_eq_none_iff, hmem])]
      by_cases hbrk : (c : Int) ≥ m ∧ f = false
      · rw [if_pos hbrk]
        intro _
        simp
      · rw [if_neg hbrk]
        intro hb
        have ih := ingestLoop_probed_length_of_broke m f rs coll (c + 1) (by simpa using hb)
        simp only [List.length_cons]
        omega
    · rw [ingestLoop, if_pos ((find_one_eq_none_iff coll r).mpr hmem)]
      intro hb
      have ih := ingestLoop_probed_length_of_broke m f rs (coll ++ [r]) c (by simpa using hb)
      simp only [List.length_cons]
      omega

/-- With `force_test_all` set, the loop never `break`s. -/
theorem ingestLoop_not_broke_of_force (m : Int) :
    ∀ (records coll : List α) (c : Nat),
      (ingestLoop m true records coll c).broke = false
  | [], coll, c => by simp [ingestLoop]
  | r :: rs, coll, c => by
    by_cases hmem : r ∈ coll
    · rw [ingestLoop, if_neg (by simp [find_one_eq_none_iff, hmem])]
      rw [if_neg (by simp)]
      simpa using ingestLoop_not_broke_of_force m rs coll (c + 1)
    · rw [ingestLoop, if_pos ((find_one_eq_none_iff coll r).mpr hmem)]
      simpa using ingestLoop_not_broke_of_force m rs (coll ++ [r]) c

/-- When every batch document is already stored, nothing is inserted and the
collection is left unchanged. -/
theorem ingestLoop_all_present (m : Int) (f : Bool) :
    ∀ (records coll : List α) (c : Nat), (∀ x ∈ records, x ∈ coll) →
      (ingestLoop m f records coll c).collection = coll ∧
        (ingestLoop m f records coll c).inserted = []
  | [], coll, c => by simp [ingestLoop]
  | r :: rs, coll, c => by
    intro hall
    have hmem : r ∈ coll := hall r (by simp)
    rw [ingestLoop, if_neg (by simp [find_one_eq_none_iff, hmem])]
    by_cases hbrk : (c : Int) ≥ m ∧ f = false
    · rw [if_pos hbrk]
      simp
    · rw [if_neg hbrk]
      have ih := ingestLoop_all_present m f rs coll (c + 1) (fun x hx => hall x (by simp [hx]))
      simpa using ih

/-- Without forcing, if every position that the loop can reach before its
counter passes the threshold holds an already-stored document, then nothing
is inserted and the collection is unchanged. -/
theorem ingestLoop_present_positions (m : Int) :
    ∀ (records coll : List α) (c : Nat),
      (∀ (i : Nat) (h : i < records.length),
        ((i : Int) + c ≤ m ∨ i = 0) → records.get ⟨i, h⟩ ∈ coll) →
      (ingestLoop m false records coll c).collection = coll ∧
        (ingestLoop m false records coll c).inserted = []
  | [], coll, c => by simp [ingestLoop]
  | r :: rs, coll, c => by
    intro hpos
    have hmem : r ∈ coll := by simpa using hpos 0 (by simp) (Or.inr rfl)
    rw [ingestLoop, if_neg (by simp [find_one_eq_none_iff, hmem])]
    by_cases hbrk : (c : Int) ≥ m ∧ (false : Bool) = false
    · rw [if_pos hbrk]
      simp
    · rw [if_neg hbrk]
      have hlt : (c : Int) < m := by
        simp only [ge_iff_le, and_true] at hbrk
        omega
      have harg : ∀ (i : Nat) (h : i < rs.length),
          ((i : Int) + (c + 1) ≤ m ∨ i = 0) → rs.get ⟨i, h⟩ ∈ coll := by
        intro i h hi
        have h' : i + 1 < (r :: rs).length := Nat.succ_lt_succ h
        have hcond : ((i + 1 : Nat) : Int) + c ≤ m ∨ (i + 1) = 0 := by
          left
          rcases hi with hle | rfl
          · push_cast at hle ⊢
            omega
          · push_cast
            omega
        exact hpos (i + 1) h' hcond
      have ih := ingestLoop_present_positions m rs coll (c + 1) harg
      simpa using ih

/-- Processing a block of `k` already-stored documents while the counter
stays at or below the threshold just probes them and adds `k` to the
counter; the run then continues on the rest of the batch. -/
theorem ingestLoop_skip_present (m : Int) (f : Bool) :
    ∀ (k : Nat) (records coll : List α) (c : Nat),
      k ≤ records.length →
      (∀ (i : Nat) (h : i < records.length), i < k → records.get ⟨i, h⟩ ∈ coll) →
      (c : Int) + k ≤ m →
      ingestLoop m f records coll c =
        ⟨(ingestLoop m f (records.drop k) coll (c + k)).collection,
         records.take k ++ (ingestLoop m f (records.drop k) coll (c + k)).probed,
         (ingestLoop m f (records.drop k) coll (c + k)).inserted,
         (ingestLoop m f (records.drop k) coll (c + k)).count,
         (ingestLoop m f (records.drop k) coll (c + k)).broke⟩
  | 0, records, coll, c => by
    intro _ _ _
    simp
  | k + 1, records, coll, c => by
    intro hk hpre hcm
    match records with
    | [] => simp at hk
    | r :: rs =>
      have hmem : r ∈ coll := hpre 0 (by simp) (Nat.succ_pos k)
      rw [ingestLoop, if_neg (by simp [find_one_eq_none_iff, hmem])]
      have hbrk : ¬((c : Int) ≥ m ∧ f = false) := by
        intro hb
        have h1 : (c : Int) + ((k : Int) + 1) ≤ m := by push_cast at hcm; omega
        have h2 : m ≤ (c : Int) := hb.1
        omega
      rw [if_neg hbrk]
      have harg : ∀ (i : Nat) (h : i < rs.length), i < k → rs.get ⟨i, h⟩ ∈ coll := by
        intro i h hi
        exact hpre (i + 1) (Nat.succ_lt_succ h) (Nat.succ_lt_succ hi)
      have hc' : ((c + 1 : Nat) : Int) + k ≤ m := by push_cast at hcm ⊢; omega
      have ih := ingestLoop_skip_present m f k rs coll (c + 1) (by simpa using hk) harg hc'
      rw [ih]
      have hco : c + 1 + k = c + (k + 1) := by omega
      simp only [List.drop_succ_cons, List.take_succ_cons, List.cons_append, hco]

/-- A batch of pairwise-distinct documents, none of which is stored, is
inserted in full, in order, without touching the counter. -/
theorem ingestLoop_all_absent (m : Int) (f : Bool) :
    ∀ (records coll : List α) (c : Nat), records.Nodup →
      (∀ x ∈ records, x ∉ coll) →
      ingestLoop m f records coll c = ⟨coll ++ records, records, records, c, false⟩
  | [], coll, c => by simp [ingestLoop]
  | r :: rs, coll, c => by
    intro hnd habs
    have hmem : r ∉ coll := habs r (by simp)
    rw [ingestLoop, if_pos ((find_one_eq_none_iff coll r).mpr hmem)]
    have hnd' := List.nodup_cons.mp hnd
    have harg : ∀ x ∈ rs, x ∉ coll ++ [r] := by
      intro x hx
      simp only [List.mem_append, List.mem_singleton]
      rintro (hc | rfl)
      · exact habs x (by simp [hx]) hc
      · exact hnd'.1 hx
    have ih := ingestLoop_all_absent m f rs (coll ++ [r]) c hnd'.2 harg
    rw [ih]
    simp

/-- The loop outcome carried by `ingest`. -/
theorem ingest_snd (records coll : List α) (m : Int) (f : Bool) :
    (ingest records coll m f).2 = ingestLoop m f records coll 0 := rfl

/-- The completion signal computed by `ingest`. -/
theorem ingest_fst (records coll : List α) (m : Int) (f : Bool) :
    (ingest records coll m f).1 =
      if ((ingestLoop m f records coll 0).count : Int) ≥ m ∧ f = false
      then false else true := rfl

/-- The completion signal is `false` exactly when the final counter meets
the threshold and forcing is off. -/
theorem ingest_signal_false_iff (records coll : List α) (m : Int) (f : Bool) :
    (ingest records coll m f).1 = false ↔
      (m ≤ ((ingestLoop m f records coll 0).count : Int) ∧ f = false) := by
  rw [ingest_fst]
  split
  · rename_i h
    simpa using h
  · rename_i h
    simp only [ge_iff_le, not_and] at h
    constructor
    · intro hc
      exact absurd hc (by simp)
    · intro hc
      exact absurd (h hc.1) (by simp [hc.2])

/-- Only probed documents are inserted. -/
theorem ingestLoop_inserted_sub_probed (m : Int) (f : Bool) :
    ∀ (records coll : List α) (c : Nat),
      ∀ x ∈ (ingestLoop m f records coll c).inserted, x ∈ (ingestLoop m f records coll c).probed
  | [], coll, c => by simp [ingestLoop]
  | r :: rs, coll, c => by
    by_cases hmem : r ∈ coll
    · rw [ingestLoop, if_neg (by simp [find_one_eq_none_iff, hmem])]
      by_cases hbrk : (c : Int) ≥ m ∧ f = false
      · rw [if_pos hbrk]
        simp
      · rw [if_neg hbrk]
        intro x hx
        simp only [List.mem_cons]
        exact Or.inr (ingestLoop_inserted_sub_probed m f rs coll (c + 1) x (by simpa using hx))
    · rw [ingestLoop, if_pos ((find_one_eq_none_iff coll r).mpr hmem)]
      intro x hx
      simp only [List.mem_cons] at hx ⊢
      rcases hx with rfl | hx
      · exact Or.inl rfl
      · exact Or.inr (ingestLoop_inserted_sub_probed m f rs (coll ++ [r]) c x hx)

/-- With threshold `0` and no forcing, a block of fresh distinct documents
followed by a repeated one is inserted up to (excluding) the repeat, whose
probe hits and `break`s the loop at once with the counter still at `0`. -/
theorem ingestLoop_zero_break :
    ∀ (pre : List α) (r : α) (post coll : List α),
      pre.Nodup → (∀ x ∈ pre, x ∉ coll) → (r ∈ coll ∨ r ∈ pre) →
      ingestLoop 0 false (pre ++ r :: post) coll 0 = ⟨coll ++ pre, pre ++ [r], pre, 0, true⟩
  | [], r, post, coll => by
    intro _ _ hr
    have hrc : r ∈ coll := by
      rcases hr with h | h
      · exact h
      · simp at h
    simp only [List.nil_append]
    rw [ingestLoop, if_neg (by simp [find_one_eq_none_iff, hrc]), if_pos (by simp)]
    simp
  | p :: pre, r, post, coll => by
    intro hnd habs hr
    have hpc : p ∉ coll := habs p (by simp)
    rw [List.cons_append, ingestLoop, if_pos ((find_one_eq_none_iff coll p).mpr hpc)]
    have hnd' := List.nodup_cons.mp hnd
    have harg : ∀ x ∈ pre, x ∉ coll ++ [p] := by
      intro x hx
      simp only [List.mem_append, List.mem_singleton]
      rintro (hc | rfl)
      · exact habs x (by simp [hx]) hc
      · exact hnd'.1 hx
    have hr' : r ∈ coll ++ [p] ∨ r ∈ pre := by
      rcases hr with h | h
      · exact Or.inl (by simp [h])
      · rcases List.mem_cons.mp h with rfl | h
        · exact Or.inl (by simp)
        · exact Or.inr h
    have ih := ingestLoop_zero_break pre r post (coll ++ [p]) hnd'.2 harg hr'
    rw [ih]
    simp

/-- An error-free run against the fallible store coincides, step for step,
with the pure run; stated for a clean block of `k` steps that the pure run
completes without `break`ing. -/
theorem ingestLoopF_clean_steps (pFail iFail : Nat → Bool) (m : Int) (f : Bool) :
    ∀ (k : Nat) (records coll : List α) (c idx : Nat),
      (∀ j, j < k → pFail (idx + j) = false ∧ iFail (idx + j) = false) →
      k ≤ records.length →
      (ingestLoop m f (records.take k) coll c).broke = false →
      ingestLoopF pFail iFail m f records coll c idx =
        ingestLoopF pFail iFail m f (records.drop k)
          (ingestLoop m f (records.take k) coll c).collection
          (ingestLoop m f (records.take k) coll c).count (idx + k)
  | 0, records, coll, c, idx => by
    intro _ _ _
    simp [ingestLoop]
  | k + 1, records, coll, c, idx => by
    intro hclean hk hnb
    match records with
    | [] => simp at hk
    | r :: rs =>
      have hstep := hclean 0 (Nat.succ_pos k)
      simp only [Nat.add_zero] at hstep
      have hclean' : ∀ j, j < k → pFail (idx + 1 + j) = false ∧ iFail (idx + 1 + j) = false := by
        intro j hj
        have := hclean (j + 1) (Nat.succ_lt_succ hj)
        simpa [Nat.add_assoc, Nat.add_comm 1 j] using this
      have hidx : idx + 1 + k = idx + (k + 1) := by omega
      simp only [List.take_succ_cons] at hnb
      simp only [List.take_succ_cons, List.drop_succ_cons]
      by_cases hmem : r ∈ coll
      · have hfo : ¬(find_one coll r = none) := by simp [find_one_eq_none_iff, hmem]
        rw [ingestLoop] at hnb
        rw [if_neg hfo] at hnb
        by_cases hbrk : (c : Int) ≥ m ∧ f = false
        · rw [if_pos hbrk] at hnb
          simp at hnb
        · rw [if_neg hbrk] at hnb
          simp only at hnb
          conv_rhs => rw [ingestLoop, if_neg hfo, if_neg hbrk]
          rw [ingestLoopF]
          rw [if_neg (show ¬(pFail idx = true) by simp [hstep.1]), if_neg hfo, if_neg hbrk]
          have ih := ingestLoopF_clean_steps pFail iFail m f k rs coll (c + 1) (idx + 1)
            hclean' (by simpa using hk) hnb
          rw [ih, hidx]
      · have hfo : find_one coll r = none := (find_one_eq_none_iff coll r).mpr hmem
        rw [ingestLoop] at hnb
        rw [if_pos hfo] at hnb
        simp only at hnb
        conv_rhs => rw [ingestLoop, if_pos hfo]
        rw [ingestLoopF]
        rw [if_neg (show ¬(pFail idx = true) by simp [hstep.1]), if_pos hfo,
          if_neg (show ¬(iFail idx = true) by simp [hstep.2])]
        have ih := ingestLoopF_clean_steps pFail iFail m f k rs (coll ++ [r]) c (idx + 1)
          hclean' (by simpa using hk) hnb
        rw [ih, hidx]

/-- A successful extraction yields one record per wrapper entry. -/
theorem extractResources_ok_length {β : Type} :
    ∀ (entries : List (RawEntry β)) (records : List β),
      extractResources entries = .ok records → records.length = entries.length
  | [], records => by
    intro h
    simp only [extractResources] at h
    cases h
    simp
  | e :: es, records => by
    intro h
    simp only [extractResources] at h
    match he : e.FlightStatusResource with
    | none => rw [he] at h; cases h
    | some r =>
      rw [he] at h
      match hrec : extractResources es with
      | .error err => rw [hrec] at h; cases h
      | .ok rs =>
        rw [hrec] at h
        cases h
        have := extractResources_ok_length es rs hrec
        simp [this]

/-- Extraction raises a `KeyError` exactly when some wrapper entry lacks the
`"FlightStatusResource"` key. -/
theorem extractResources_error_iff {β : Type} :
    ∀ (entries : List (RawEntry β)),
      (∃ err, extractResources entries = .error err) ↔
        ∃ e ∈ entries, e.FlightStatusResource = none
  | [] => by
    simp [extractResources]
  | e :: es => by
    simp only [extractResources]
    match he : e.FlightStatusResource with
    | none => simp [he]
    | some r =>
      match hrec : extractResources es with
      | .error err =>
        have := (extractResources_error_iff es).mp ⟨err, hrec⟩
        simp only [he]
        constructor
        · intro _
          rcases this with ⟨e', he', hn⟩
          exact ⟨e', by simp [he'], hn⟩
        · intro _
          exact ⟨err, rfl⟩
      | .ok rs =>
        have hno : ¬∃ e ∈ es, e.FlightStatusResource = none := by
          intro hx
          rcases (extractResources_error_iff es).mpr hx with ⟨err, herr⟩
          rw [herr] at hrec
          cases hrec
        simp only [he]
        constructor
        · rintro ⟨err, herr⟩
          cases herr
        · rintro ⟨e', he', hn⟩
          rcases List.mem_cons.mp he' with rfl | he'
          · rw [he] at hn
            cases hn
          · exact absurd ⟨e', he', hn⟩ hno

/-- C1: `ingest` (the record-level body of `add_flight_dict`) returns `false`
if and only if, at the end of processing, the final `existence_count` is at
least `existence_max_count` and `force_test_all` is false; in every other
case it returns `true`. -/
theorem c1_signal_iff (records coll : List α) (m : Int) (f : Bool) :
    (ingest records coll m f).1 = false ↔
      (((ingest records coll m f).2.count : Int) ≥ m ∧ f = false) := by
  unfold ingest
  dsimp only
  split
  · simpa using ‹_›
  · rename_i h
    simp only [ge_iff_le, not_and] at h
    constructor
    · intro hc
      exact absurd hc (by simp)
    · intro hc
      exact absurd (h hc.1) (by simp [hc.2])

/-- C10: a run that examines every record and inserts every absent one can
still return `false`: with threshold 1 and no forcing, batch `[1, 2]` against
collection `[1]` probes both records, inserts record `2`, and yet signals
`false`. -/
theorem c10_false_signal_full_scan :
    (ingest [1, 2] [1] 1 false).1 = false ∧
      (ingest [1, 2] ([1] : List Nat) 1 false).2.probed = [1, 2] ∧
      (ingest [1, 2] ([1] : List Nat) 1 false).2.inserted = [2] ∧
      (ingest [1, 2] ([1] : List Nat) 1 false).2.collection = [1, 2] ∧
      (ingest [1, 2] ([1] : List Nat) 1 false).2.broke = false := by
  decide

/-- C2 (counterexample): with `existence_max_count = 1` and no forcing, batch
`[10, 20]` against collection `[10]` has its single tolerated position
already present, yet position 2 (= N+1) is both probed and — being absent —
inserted, contradicting the claim that it is never probed nor inserted. -/
theorem c2_counterexample :
    (ingest [10, 20] ([10] : List Nat) 1 false).2.probed = [10, 20] ∧
      (ingest [10, 20] ([10] : List Nat) 1 false).2.inserted = [20] := by
  decide

/-- C2 (amended): with threshold `N`, no forcing, and the records at
positions `1..N` all already present, the completion signal is `false` and
position `N+1` is still probed: if it is present the loop stops right after
that probe, leaving the collection unchanged; if it is absent it is
inserted. -/
theorem c2_threshold_boundary_amended (N : Nat) (records coll : List α)
    (hN : N < records.length)
    (hpre : ∀ (i : Nat) (h : i < records.length), i < N → records.get ⟨i, h⟩ ∈ coll) :
    (ingest records coll (N : Int) false).1 = false ∧
      N < (ingest records coll (N : Int) false).2.probed.length ∧
      (records.get ⟨N, hN⟩ ∈ coll →
        (ingest records coll (N : Int) false).2.probed = records.take (N + 1) ∧
          (ingest records coll (N : Int) false).2.collection = coll ∧
          (ingest records coll (N : Int) false).2.inserted = []) ∧
      (records.get ⟨N, hN⟩ ∉ coll →
        records.get ⟨N, hN⟩ ∈ (ingest records coll (N : Int) false).2.inserted) := by
  have hskip := ingestLoop_skip_present (N : Int) false N records coll 0
    (le_of_lt hN) hpre (by simp)
  have hdrop : records.drop N = records.get ⟨N, hN⟩ :: records.drop (N + 1) := by
    rw [← List.getElem_cons_drop records N hN]
    simp [List.get_eq_getElem]
  simp only [Nat.zero_add, hdrop] at hskip
  by_cases hg : records.get ⟨N, hN⟩ ∈ coll
  · have hfo : ¬(find_one coll (records.get ⟨N, hN⟩) = none) := by
      rw [find_one_eq_none_iff]
      exact not_not_intro hg
    have hinner : ingestLoop (N : Int) false
        (records.get ⟨N, hN⟩ :: records.drop (N + 1)) coll N =
        ⟨coll, [records.get ⟨N, hN⟩], [], N, true⟩ := by
      rw [ingestLoop, if_neg hfo, if_pos ⟨le_refl (N : Int), rfl⟩]
    rw [hinner] at hskip
    refine ⟨?_, ?_, fun _ => ⟨?_, ?_, ?_⟩, fun hng => absurd hg hng⟩
    · apply (ingest_signal_false_iff records coll (N : Int) false).mpr
      refine ⟨?_, rfl⟩
      rw [hskip]
    · rw [ingest_snd, hskip]
      show N < (records.take N ++ [records.get ⟨N, hN⟩]).length
      rw [List.length_append, List.length_take, min_eq_left (le_of_lt hN)]
      simp
    · rw [ingest_snd, hskip]
      show records.take N ++ [records.get ⟨N, hN⟩] = records.take (N + 1)
      rw [← List.take_concat_get records N hN, List.concat_eq_append]
      simp [List.get_eq_getElem]
    · rw [ingest_snd, hskip]
    · rw [ingest_snd, hskip]
  · have hfo : find_one coll (records.get ⟨N, hN⟩) = none :=
      (find_one_eq_none_iff _ _).mpr hg
    have hinner : ingestLoop (N : Int) false
        (records.get ⟨N, hN⟩ :: records.drop (N + 1)) coll N =
        ⟨(ingestLoop (N : Int) false (records.drop (N + 1))
            (coll ++ [records.get ⟨N, hN⟩]) N).collection,
         records.get ⟨N, hN⟩ :: (ingestLoop (N : Int) false (records.drop (N + 1))
            (coll ++ [records.get ⟨N, hN⟩]) N).probed,
         records.get ⟨N, hN⟩ :: (ingestLoop (N : Int) false (records.drop (N + 1))
            (coll ++ [records.get ⟨N, hN⟩]) N).inserted,
         (ingestLoop (N : Int) false (records.drop (N + 1))
            (coll ++ [records.get ⟨N, hN⟩]) N).count,
         (ingestLoop (N : Int) false (records.drop (N + 1))
            (coll ++ [records.get ⟨N, hN⟩]) N).broke⟩ := by
      rw [ingestLoop, if_pos hfo]
    rw [hinner] at hskip
    have hcle : N ≤ (ingestLoop (N : Int) false (records.drop (N + 1))
        (coll ++ [records.get ⟨N, hN⟩]) N).count :=
      ingestLoop_count_le (N : Int) false (records.drop (N + 1)) _ N
    refine ⟨?_, ?_, fun hin => absurd hin hg, ?_⟩
    · apply (ingest_signal_false_iff records coll (N : Int) false).mpr
      refine ⟨?_, rfl⟩
      rw [hskip]
      exact_mod_cast hcle
    · rw [ingest_snd, hskip]
      show N < (records.take N ++ records.get ⟨N, hN⟩ :: _).length
      rw [List.length_append, List.length_take, min_eq_left (le_of_lt hN)]
      simp
    · rw [ingest_snd, hskip]
      simp

/-- Witness for C2 (amended) at a concrete input. -/
theorem c2_threshold_boundary_amended_witness :
    (ingest [10, 20] ([10] : List Nat) ((1 : Nat) : Int) false).1 = false ∧
      (20 : Nat) ∈ (ingest [10, 20] ([10] : List Nat) ((1 : Nat) : Int) false).2.inserted := by
  have h := c2_threshold_boundary_amended 1 [10, 20] [10] (by decide) (by decide)
  exact ⟨h.1, h.2.2.2 (by decide)⟩

/-- C3: for a batch of 7 records with the first 6 already present and the
7th absent, with threshold 5 and no forcing, exactly the first 6 records are
probed (the counter is incremented 5 times, the 6th hit `break`s), the 7th
is never probed, nothing is inserted, the collection is unchanged, and the
signal is `false`. -/
theorem c3_scenario_seven (r0 r1 r2 r3 r4 r5 r6 : α) (coll : List α)
    (h0 : r0 ∈ coll) (h1 : r1 ∈ coll) (h2 : r2 ∈ coll) (h3 : r3 ∈ coll)
    (h4 : r4 ∈ coll) (h5 : r5 ∈ coll) (_h6 : r6 ∉ coll) :
    (ingest [r0, r1, r2, r3, r4, r5, r6] coll 5 false).1 = false ∧
      (ingest [r0, r1, r2, r3, r4, r5, r6] coll 5 false).2.probed = [r0, r1, r2, r3, r4, r5] ∧
      (ingest [r0, r1, r2, r3, r4, r5, r6] coll 5 false).2.count = 5 ∧
      (ingest [r0, r1, r2, r3, r4, r5, r6] coll 5 false).2.collection = coll ∧
      (ingest [r0, r1, r2, r3, r4, r5, r6] coll 5 false).2.inserted = [] := by
  have hpre : ∀ (i : Nat) (h : i < ([r0, r1, r2, r3, r4, r5, r6] : List α).length), i < 5 →
      [r0, r1, r2, r3, r4, r5, r6].get ⟨i, h⟩ ∈ coll := by
    intro i h hi
    interval_cases i
    · exact h0
    · exact h1
    · exact h2
    · exact h3
    · exact h4
  have hskip := ingestLoop_skip_present 5 false 5 [r0, r1, r2, r3, r4, r5, r6] coll 0
    (by simp) hpre (by norm_num)
  simp only [Nat.zero_add] at hskip
  have hdt : ([r0, r1, r2, r3, r4, r5, r6] : List α).drop 5 = [r5, r6] := rfl
  have htk : ([r0, r1, r2, r3, r4, r5, r6] : List α).take 5 = [r0, r1, r2, r3, r4] := rfl
  rw [hdt, htk] at hskip
  have hfo : ¬(find_one coll r5 = none) := by
    rw [find_one_eq_none_iff]
    exact not_not_intro h5
  have hinner : ingestLoop 5 false [r5, r6] coll 5 = ⟨coll, [r5], [], 5, true⟩ := by
    rw [ingestLoop, if_neg hfo, if_pos ⟨by norm_num, rfl⟩]
  rw [hinner] at hskip
  refine ⟨?_, ?_, ?_, ?_, ?_⟩
  · apply (ingest_signal_false_iff _ _ _ _).mpr
    refine ⟨?_, rfl⟩
    rw [hskip]
    norm_num
  · rw [ingest_snd, hskip]
    simp
  · rw [ingest_snd, hskip]
  · rw [ingest_snd, hskip]
  · rw [ingest_snd, hskip]

/-- Witness for C3 at a concrete input. -/
theorem c3_scenario_seven_witness :
    (ingest [0, 1, 2, 3, 4, 5, 6] ([0, 1, 2, 3, 4, 5] : List Nat) 5 false).1 = false ∧
      (ingest [0, 1, 2, 3, 4, 5, 6] ([0, 1, 2, 3, 4, 5] : List Nat) 5 false).2.probed =
        [0, 1, 2, 3, 4, 5] := by
  have h := c3_scenario_seven 0 1 2 3 4 5 6 [0, 1, 2, 3, 4, 5] (by decide) (by decide)
    (by decide) (by decide) (by decide) (by decide) (by decide)
  exact ⟨h.1, h.2.1⟩

/-- C4: with `force_test_all` set, every record of the batch is probed, no
early exit happens, exactly the records absent at probe time are inserted
(each at most once, none that was already stored), and the signal is `true`. -/
theorem c4_force_override (records coll : List α) (m : Int) :
    (ingest records coll m true).1 = true ∧
      (ingest records coll m true).2.probed = records ∧
      (∀ x, x ∈ (ingest records coll m true).2.collection ↔ (x ∈ coll ∨ x ∈ records)) ∧
      (∀ x ∈ (ingest records coll m true).2.inserted, x ∉ coll) ∧
      (ingest records coll m true).2.inserted.Nodup := by
  have hnb := ingestLoop_not_broke_of_force m records coll 0
  have hpr := ingestLoop_probed_of_not_broke m true records coll 0 hnb
  refine ⟨?_, ?_, ?_, ?_, ?_⟩
  · rw [ingest_fst]
    simp
  · rw [ingest_snd]
    exact hpr
  · intro x
    rw [ingest_snd]
    constructor
    · intro hx
      rw [ingestLoop_collection_eq] at hx
      rcases List.mem_append.mp hx with h | h
      · exact Or.inl h
      · refine Or.inr ?_
        have hp := ingestLoop_inserted_sub_probed m true records coll 0 x h
        rwa [hpr] at hp
    · rintro (h | h)
      · rw [ingestLoop_collection_eq]
        exact List.mem_append.mpr (Or.inl h)
      · exact ingestLoop_mem_collection_of_mem_probed m true records coll 0 x (by rwa [hpr])
  · rw [ingest_snd]
    exact ingestLoop_inserted_not_mem m true records coll 0
  · rw [ingest_snd]
    exact ingestLoop_inserted_nodup m true records coll 0

/-- Witness for C4 at a concrete input. -/
theorem c4_force_override_witness :
    (ingest [7, 8] ([7] : List Nat) 0 true).1 = true ∧
      ((8 : Nat) ∈ (ingest [7, 8] ([7] : List Nat) 0 true).2.collection ↔
        (8 ∈ ([7] : List Nat) ∨ 8 ∈ [7, 8])) := by
  have h := c4_force_override [7, 8] ([7] : List Nat) 0
  exact ⟨h.1, h.2.2.1 8⟩

/-- C5 (counterexample): with `existence_max_count = 0` and no forcing, the
batch `[0]` against the empty collection is fully inserted, yet the call
returns `false` (the final counter `0` already meets the threshold `0`),
contradicting the claimed `true`. -/
theorem c5_counterexample :
    (ingest [0] ([] : List Nat) 0 false).2.inserted = [0] ∧
      (ingest [0] ([] : List Nat) 0 false).1 = false := by
  decide

/-- C5 (amended): with threshold `0` and no forcing, the first probe that
hits an existing document stops the loop at once — nothing after it is
probed or inserted — and the signal is `false`; a batch of pairwise-distinct
all-absent records is still fully inserted, but the signal is `false` as
well (counter `0` meets threshold `0`), not `true` as claimed. -/
theorem c5_zero_threshold_amended :
    (∀ (pre : List α) (r : α) (post coll : List α),
        pre.Nodup → (∀ x ∈ pre, x ∉ coll) → (r ∈ coll ∨ r ∈ pre) →
        (ingest (pre ++ r :: post) coll 0 false).1 = false ∧
          (ingest (pre ++ r :: post) coll 0 false).2.probed = pre ++ [r] ∧
          (ingest (pre ++ r :: post) coll 0 false).2.inserted = pre ∧
          (ingest (pre ++ r :: post) coll 0 false).2.collection = coll ++ pre) ∧
      (∀ (records coll : List α), records.Nodup → (∀ x ∈ records, x ∉ coll) →
        (ingest records coll 0 false).2.inserted = records ∧
          (ingest records coll 0 false).2.collection = coll ++ records ∧
          (ingest records coll 0 false).1 = false) := by
  constructor
  · intro pre r post coll hnd habs hr
    have h := ingestLoop_zero_break pre r post coll hnd habs hr
    rw [ingest_fst, ingest_snd, h]
    simp
  · intro records coll hnd habs
    have h := ingestLoop_all_absent 0 false records coll 0 hnd habs
    rw [ingest_fst, ingest_snd, h]
    simp

/-- Witness for C5 (amended) at concrete inputs. -/
theorem c5_zero_threshold_amended_witness :
    (ingest ([1] ++ 1 :: [2]) ([] : List Nat) 0 false).1 = false ∧
      (ingest ([1] ++ 1 :: [2]) ([] : List Nat) 0 false).2.probed = [1] ++ [1] ∧
      (ingest [3, 4] ([] : List Nat) 0 false).2.inserted = [3, 4] := by
  have h1 := (c5_zero_threshold_amended (α := Nat)).1 [1] 1 [2] [] (by decide) (by decide)
    (Or.inr (by decide))
  have h2 := (c5_zero_threshold_amended (α := Nat)).2 [3, 4] [] (by decide) (by decide)
  exact ⟨h1.1, h1.2.1, h2.1⟩

/-- C6: re-running `ingest` on the same batch against the collection the
first run produced inserts nothing and leaves the collection exactly as the
first run left it (and the second run is a pure function of batch,
collection and settings, so its signal is determined by them). -/
theorem c6_idempotent (records C0 : List α) (m : Int) (f : Bool) :
    (ingest records (ingest records C0 m f).2.collection m f).2.collection =
        (ingest records C0 m f).2.collection ∧
      (ingest records (ingest records C0 m f).2.collection m f).2.inserted = [] := by
  rw [ingest_snd, ingest_snd]
  cases hb : (ingestLoop m f records C0 0).broke
  · have hpr := ingestLoop_probed_of_not_broke m f records C0 0 hb
    have hall : ∀ x ∈ records, x ∈ (ingestLoop m f records C0 0).collection := by
      intro x hx
      exact ingestLoop_mem_collection_of_mem_probed m f records C0 0 x (by rwa [hpr])
    exact ingestLoop_all_present m f records _ 0 hall
  · cases f
    · apply ingestLoop_present_positions
      intro i h hi
      have hcge := ingestLoop_count_ge_of_broke m false records C0 0 hb
      have hlen := ingestLoop_probed_length_of_broke m false records C0 0 hb
      have htake := ingestLoop_probed_take m false records C0 0
      have hi' : i < (ingestLoop m false records C0 0).probed.length := by
        rcases hi with hle | rfl
        · have h1 : (i : Int) ≤ m := by push_cast at hle; omega
          have h2 : ((ingestLoop m false records C0 0).count : Int) ≤ m :=
            ingestLoop_count_le_max m records C0 0 (by push_cast; omega)
          omega
        · omega
      have hmem : records.get ⟨i, h⟩ ∈ (ingestLoop m false records C0 0).probed := by
        rw [htake]
        have hlt : i < (records.take (ingestLoop m false records C0 0).probed.length).length := by
          rw [List.length_take]
          exact lt_min hi' h
        have hget : (records.take (ingestLoop m false records C0 0).probed.length).get ⟨i, hlt⟩ =
            records.get ⟨i, h⟩ := by
          simp [List.get_eq_getElem, List.getElem_take]
        rw [← hget]
        exact List.get_mem _ _ _
      exact ingestLoop_mem_collection_of_mem_probed m false records C0 0 _ hmem
    · have := ingestLoop_not_broke_of_force m records C0 0
      rw [this] at hb
      cases hb

/-- C7: `ingest` only grows the collection: the final contents are the
initial contents followed by the inserted documents (nothing is overwritten
or removed), only documents absent at probe time are inserted, no document
is inserted twice in one call, and a duplicate-free collection stays
duplicate-free. -/
theorem c7_growth_invariant (records coll : List α) (m : Int) (f : Bool) :
    (ingest records coll m f).2.collection = coll ++ (ingest records coll m f).2.inserted ∧
      (∀ x ∈ (ingest records coll m f).2.inserted, x ∉ coll) ∧
      (ingest records coll m f).2.inserted.Nodup ∧
      (coll.Nodup → (ingest records coll m f).2.collection.Nodup) := by
  refine ⟨?_, ?_, ?_, ?_⟩
  · rw [ingest_snd]
    exact ingestLoop_collection_eq m f records coll 0
  · rw [ingest_snd]
    exact ingestLoop_inserted_not_mem m f records coll 0
  · rw [ingest_snd]
    exact ingestLoop_inserted_nodup m f records coll 0
  · intro hnd
    rw [ingest_snd, ingestLoop_collection_eq, List.nodup_append]
    exact ⟨hnd, ingestLoop_inserted_nodup m f records coll 0,
      fun a ha hb => ingestLoop_inserted_not_mem m f records coll 0 a hb ha⟩

/-- Witness for C7 at a concrete input. -/
theorem c7_growth_invariant_witness :
    (ingest [1, 2, 1] ([2] : List Nat) 5 false).2.collection =
        [2] ++ (ingest [1, 2, 1] ([2] : List Nat) 5 false).2.inserted ∧
      ([2] : List Nat).Nodup ∧ (ingest [1, 2, 1] ([2] : List Nat) 5 false).2.collection.Nodup := by
  have h := c7_growth_invariant [1, 2, 1] ([2] : List Nat) 5 false
  exact ⟨h.1, by decide, h.2.2.2 (by decide)⟩

/-- C8: `add_flight_dict` raises a `KeyError` (the spec's `MalformedBatch`)
exactly when the top-level `"data"` key or some wrapper's
`"FlightStatusResource"` key is absent, in which case no probe or insert is
attempted; a successful decomposition is never partial — it yields one
record per wrapper entry. -/
theorem c8_malformed_batch (flights : RawFlights α) (coll : List α) (m : Int) (f : Bool) :
    ((flights.data = none ∨ ∃ e ∈ flights.data.getD [], e.FlightStatusResource = none) ↔
        ∃ err, add_flight_dict flights coll m f = .error err) ∧
      (∀ records, decompose flights = .ok records →
        records.length = (flights.data.getD []).length) := by
  match hd : flights.data with
  | none =>
    refine ⟨⟨fun _ => ⟨.missingData, by simp [add_flight_dict, decompose, hd]⟩,
      fun _ => Or.inl rfl⟩, ?_⟩
    intro records hrec
    simp [decompose, hd] at hrec
  | some entries =>
    constructor
    · constructor
      · rintro (h | h)
        · exact absurd h (by simp)
        · simp only [Option.getD_some] at h
          rcases (extractResources_error_iff entries).mpr h with ⟨err, herr⟩
          exact ⟨err, by simp [add_flight_dict, decompose, hd, herr]⟩
      · rintro ⟨err, herr⟩
        refine Or.inr ?_
        simp only [Option.getD_some]
        apply (extractResources_error_iff entries).mp
        match hrec : extractResources entries with
        | .error e => exact ⟨e, rfl⟩
        | .ok rs =>
          rw [add_flight_dict] at herr
          simp [decompose, hd, hrec] at herr
    · intro records hrec
      simp only [Option.getD_some]
      simp only [decompose, hd] at hrec
      exact extractResources_ok_length entries records hrec

/-- Witness for C8 at a concrete input: a well-formed one-entry batch
decomposes totally, into as many records as wrapper entries. -/
theorem c8_malformed_batch_witness :
    ([3] : List Nat).length = ((⟨some [⟨some 3⟩]⟩ : RawFlights Nat).data.getD []).length := by
  exact (c8_malformed_batch (⟨some [⟨some 3⟩]⟩ : RawFlights Nat) [] 5 false).2 [3] rfl

/-- C9: if every probe and insert before batch position `k` succeeds, the
loop reaches position `k` without `break`ing, and the operation at position
`k` (the probe, or the insert of an absent record) raises a `StorageError`,
then the error propagates to the caller and the collection is left holding
the initial contents plus exactly the insertions already performed — no
retry, no rollback. -/
theorem c9_storage_error (pFail iFail : Nat → Bool) (records coll : List α)
    (m : Int) (f : Bool) (k : Nat) (hk : k < records.length)
    (hclean : ∀ j, j < k → pFail j = false ∧ iFail j = false)
    (hnb : (ingestLoop m f (records.take k) coll 0).broke = false)
    (hfail : pFail k = true ∨
      (pFail k = false ∧ iFail k = true ∧
        records.get ⟨k, hk⟩ ∉ (ingestLoop m f (records.take k) coll 0).collection)) :
    ingestF pFail iFail records coll m f =
        .error (ingestLoop m f (records.take k) coll 0).collection ∧
      (ingestLoop m f (records.take k) coll 0).collection =
        coll ++ (ingestLoop m f (records.take k) coll 0).inserted := by
  have hsteps := ingestLoopF_clean_steps pFail iFail m f k records coll 0 0
    (by simpa using hclean) (le_of_lt hk) hnb
  have hdrop : records.drop k = records.get ⟨k, hk⟩ :: records.drop (k + 1) := by
    rw [← List.getElem_cons_drop records k hk]
    simp [List.get_eq_getElem]
  refine ⟨?_, ingestLoop_collection_eq m f (records.take k) coll 0⟩
  unfold ingestF
  rw [hsteps]
  simp only [Nat.zero_add]
  rw [hdrop, ingestLoopF]
  rcases hfail with hp | ⟨hp, hi, habs⟩
  · rw [if_pos (by simp [hp])]
  · rw [if_neg (by simp [hp]), if_pos ((find_one_eq_none_iff _ _).mpr habs),
      if_pos (by simp [hi])]

/-- Witness for C9 at a concrete input: the probe at position 2 fails after
positions 0 and 1 were inserted cleanly. -/
theorem c9_storage_error_witness :
    ingestF (fun j => decide (j = 2)) (fun _ => false) [1, 2, 3] ([] : List Nat) 5 false =
      .error [1, 2] := by
  have h := c9_storage_error (fun j => decide (j = 2)) (fun _ => false) [1, 2, 3] [] 5 false 2
    (by decide) (by decide) (by decide) (Or.inl (by decide))
  exact h.1.trans (congrArg Except.error (by decide))

end DstAirlines
